import Mathlib

/-!
Verification of the reference-rewrite engine of `update-docker-tags`
(`src/update-docker-tags.go`, current variant: lines 648-1068).

Buffers (`[]byte` in Go) are modelled as `List Char`; `string(b)` and
`[]byte(s)` become `String.mk` / `String.data`.  The Go `regexp` engine is
not re-implemented: `regexp.FindAllSubmatchIndex` is modelled by passing the
resulting index list (`RegexMatch`) explicitly, together with the
well-formedness facts that `FindAllSubmatchIndex` guarantees
(`validMatches`: the found spans are in order, non-overlapping, and group spans are
nested and ordered inside the match span).  Network collaborators
(auth-token, tag-list and digest fetch) are modelled as explicit oracle
functions returning `Except`.
-/

/-- Go slice `src[a:b]` of a buffer (for `a ≤ b`, which is the only way
the Go code uses it; Go panics outside that range). -/
def goSlice (src : List Char) (a b : Nat) : List Char :=
  (src.drop a).take (b - a)

/-- One match as produced by `regexp.FindAllSubmatchIndex`: the flat index
list `[start, stop, g1start, g1stop, g2start, g2stop, …]` repackaged as a
start/stop pair plus the list of capture-group spans. -/
structure RegexMatch where
  start : Nat
  stop : Nat
  groups : List (Nat × Nat)
deriving Repr, DecidableEq

/-- The capture-group byte values of a match: `src[start:end]` for each
group span (the `groups` value built in `replaceAllSubmatchFunc`). -/
def extractGroups (src : List Char) (idxs : List (Nat × Nat)) : List (List Char) :=
  idxs.map (fun p => goSlice src p.1 p.2)

/-- The group-splicing loop of `replaceAllSubmatchFunc` (`for i, newValue :=
range groups`): emits the uncaptured bytes before each group followed by the
group's replacement value, then the remaining bytes up to the end of the
match (`src[lastGroup:matchEnd]`). -/
def spliceLoop (src : List Char) :
    List (List Char) → List (Nat × Nat) → Nat → Nat → List Char
  | newValue :: rest, (gs, ge) :: irest, lastGroup, matchEnd =>
    goSlice src lastGroup gs ++ newValue ++ spliceLoop src rest irest ge matchEnd
  | _, _, lastGroup, matchEnd => goSlice src lastGroup matchEnd

/-- The outer loop of `replaceAllSubmatchFunc` over the found spans: emits the
non-matched bytes since the previous match, then the spliced match, and
finally the trailing bytes `src[last:]`. -/
def replaceLoop (src : List Char) (repl : List (List Char) → List (List Char)) :
    List RegexMatch → Nat → List Char
  | [], last => goSlice src last src.length
  | m :: ms, last =>
    goSlice src last m.start ++
      spliceLoop src (repl (extractGroups src m.groups)) m.groups m.start m.stop ++
      replaceLoop src repl ms m.stop

/-- The call `replaceAllSubmatchFunc re src repl n` with the match list
`re.FindAllSubmatchIndex(src, n)` passed explicitly (the pattern and the
match-count limit `n` only determine that list). -/
def replaceAllSubmatchFunc (src : List Char) (matchList : List RegexMatch)
    (repl : List (List Char) → List (List Char)) : List Char :=
  replaceLoop src repl matchList 0

/-- Group spans are ordered and nested between `lo` and `hi`:
`lo ≤ g1s ≤ g1e ≤ g2s ≤ … ≤ hi`. -/
def chainOk (lo : Nat) : List (Nat × Nat) → Nat → Bool
  | [], hi => lo ≤ hi
  | (a, b) :: rest, hi => lo ≤ a && a ≤ b && chainOk b rest hi

/-- Well-formedness of a `FindAllSubmatchIndex` result: the spans appear in
order, do not overlap, fit in the buffer, and each match's group spans are
ordered and nested within the match span. -/
def validMatches (len : Nat) (last : Nat) : List RegexMatch → Bool
  | [] => last ≤ len
  | m :: ms => last ≤ m.start && chainOk m.start m.groups m.stop && validMatches len m.stop ms

theorem slice_append (src : List Char) {a b c : Nat} (hab : a ≤ b) (hbc : b ≤ c) :
    goSlice src a b ++ goSlice src b c = goSlice src a c := by
  unfold goSlice
  have hdrop : src.drop b = (src.drop a).drop (b - a) := by
    rw [List.drop_drop]
    congr 1
    omega
  rw [hdrop, ← List.take_add]
  congr 1
  omega

theorem slice_zero_length (src : List Char) : goSlice src 0 src.length = src := by
  simp [goSlice]

theorem chainOk_le {lo hi : Nat} {idxs : List (Nat × Nat)}
    (h : chainOk lo idxs hi = true) : lo ≤ hi := by
  induction idxs generalizing lo with
  | nil => simpa [chainOk] using h
  | cons p rest ih =>
    obtain ⟨a, b⟩ := p
    simp only [chainOk, Bool.and_eq_true, decide_eq_true_eq] at h
    have := ih h.2
    omega

theorem validMatches_le {len last : Nat} {ms : List RegexMatch}
    (h : validMatches len last ms = true) : last ≤ len := by
  induction ms generalizing last with
  | nil => simpa [validMatches] using h
  | cons m ms ih =>
    simp only [validMatches, Bool.and_eq_true, decide_eq_true_eq] at h
    have h1 := h.1.1
    have h2 := chainOk_le h.1.2
    have h3 := ih h.2
    omega

/-- Splicing back the original group values reproduces the whole match span. -/
theorem spliceLoop_id (src : List Char) {lg hi : Nat} {idxs : List (Nat × Nat)}
    (h : chainOk lg idxs hi = true) :
    spliceLoop src (extractGroups src idxs) idxs lg hi = goSlice src lg hi := by
  induction idxs generalizing lg with
  | nil => simp [spliceLoop, extractGroups]
  | cons p rest ih =>
    obtain ⟨a, b⟩ := p
    simp only [chainOk, Bool.and_eq_true, decide_eq_true_eq] at h
    obtain ⟨⟨h1, h2⟩, h3⟩ := h
    have hbhi : b ≤ hi := chainOk_le h3
    simp only [extractGroups, List.map_cons, spliceLoop]
    rw [show (List.map (fun p => goSlice src p.1 p.2) rest) = extractGroups src rest from rfl,
      ih h3, List.append_assoc, slice_append src h2 hbhi,
      slice_append src h1 (le_trans h2 hbhi)]

theorem replaceLoop_id (src : List Char) (repl : List (List Char) → List (List Char))
    {matchList : List RegexMatch} {last : Nat}
    (hv : validMatches src.length last matchList = true)
    (hr : ∀ m ∈ matchList, repl (extractGroups src m.groups) = extractGroups src m.groups) :
    replaceLoop src repl matchList last = goSlice src last src.length := by
  induction matchList generalizing last with
  | nil => simp [replaceLoop]
  | cons m ms ih =>
    simp only [validMatches, Bool.and_eq_true, decide_eq_true_eq] at hv
    obtain ⟨⟨h1, h2⟩, h3⟩ := hv
    simp only [replaceLoop]
    rw [hr m (List.mem_cons_self m ms)]
    rw [spliceLoop_id src h2]
    rw [ih h3 (fun m hm => hr m (List.mem_cons_of_mem _ hm))]
    have hse : m.start ≤ m.stop := chainOk_le h2
    have hsl : m.stop ≤ src.length := validMatches_le h3
    rw [List.append_assoc, slice_append src hse hsl,
      slice_append src h1 (le_trans hse hsl)]

/-!
## The `github.com/Masterminds/semver` (v1) model

The repository delegates version parsing, comparison and constraint checking
to the Masterminds `semver` v1 library.  `NewVersion` is its anchored regex
`^v?([0-9]+)(\.[0-9]+)?(\.[0-9]+)?(-([0-9A-Za-z-]+(\.[0-9A-Za-z-]+)*))?`
`(\+([0-9A-Za-z-]+(\.[0-9A-Za-z-]+)*))?$` together with 64-bit
`strconv.ParseInt` on the numeric components; since every alternative in the
regex starts with a distinct delimiter, a greedy left-to-right parse is
equivalent.  `Compare` compares major/minor/patch numerically, then
prerelease strings per the library's `comparePrerelease`/`comparePrePart`
(dot-separated parts, numeric parts — including `ParseInt`-negative ones —
before alphanumeric ones, Go byte-wise string order otherwise).  A
`*semver.Constraints` value is used by the repository only through its
`Check` method, so a constraint is modelled as a `SemVer → Bool` predicate.
-/

/-- Decimal value of a digit run (`strconv.ParseInt` body). -/
def digitsToNat (ds : List Char) : Nat :=
  ds.foldl (fun n c => n * 10 + (c.toNat - '0'.toNat)) 0

/-- One numeric component `[0-9]+` with the `ParseInt(…, 10, 64)` range
check (int64 overflow makes `NewVersion` fail). -/
def parseSegment (s : List Char) : Option (Nat × List Char) :=
  let ds := s.takeWhile Char.isDigit
  if ds.isEmpty then none
  else if digitsToNat ds < 2 ^ 63 then some (digitsToNat ds, s.dropWhile Char.isDigit)
  else none

/-- An optional `(\.[0-9]+)?` component; a missing component is 0
(`sv.minor = 0` / `sv.patch = 0` in `NewVersion`). -/
def parseDotSegment (s : List Char) : Option (Nat × List Char) :=
  match s with
  | '.' :: rest => parseSegment rest
  | _ => some (0, s)

/-- A prerelease/metadata part character: `[0-9A-Za-z-]`. -/
def isPrePartChar (c : Char) : Bool := c.isAlpha || c.isDigit || c == '-'

/-- Model of `strings.Split(s, sep)` for a one-character separator. -/
def splitOnChar (sep : Char) : List Char → List (List Char)
  | [] => [[]]
  | c :: rest =>
    if c = sep then [] :: splitOnChar sep rest
    else
      match splitOnChar sep rest with
      | p :: ps => (c :: p) :: ps
      | [] => [[c]]

/-- An optional `mark`-introduced section `part(.part)*` of the version
regex (`mark` is `-` for prerelease, `+` for build metadata): the raw run of
part/dot characters, valid when every dot-separated part is nonempty. -/
def parseSection (mark : Char) (s : List Char) : Option (List Char × List Char) :=
  match s with
  | [] => some ([], [])
  | c :: rest =>
    if c = mark then
      let run := rest.takeWhile (fun d => isPrePartChar d || d == '.')
      if (splitOnChar '.' run).all (fun p => !p.isEmpty) then
        some (run, rest.dropWhile (fun d => isPrePartChar d || d == '.'))
      else none
    else some ([], s)

/-- The `semver.NewVersion` anchored regex match plus `ParseInt` checks:
major/minor/patch values, prerelease string, metadata string. -/
def semverParse (s : List Char) : Option (Nat × Nat × Nat × List Char × List Char) :=
  let s0 := match s with | 'v' :: rest => rest | _ => s
  match parseSegment s0 with
  | none => none
  | some (maj, r1) =>
    match parseDotSegment r1 with
    | none => none
    | some (mnr, r2) =>
      match parseDotSegment r2 with
      | none => none
      | some (pat, r3) =>
        match parseSection '-' r3 with
        | none => none
        | some (pre, r4) =>
          match parseSection '+' r4 with
          | none => none
          | some (md, r5) =>
            if r5.isEmpty then some (maj, mnr, pat, pre, md) else none

/-- The `semver.Version` data: parsed numeric fields, the prerelease and metadata
strings, and the original literal string (`Original()`). -/
structure SemVer where
  major : Nat
  minor : Nat
  patch : Nat
  pre : List Char
  metadata : List Char
  original : String
deriving Repr, DecidableEq

/-- Model of `semver.NewVersion`: parse a tag; keep the literal input as
`original`. -/
def semverNewVersion (s : String) : Option SemVer :=
  match semverParse s.data with
  | none => none
  | some (maj, mnr, pat, pre, md) => some ⟨maj, mnr, pat, pre, md, s⟩

/-- The library's `compareSegment`. -/
def compareSegment (v o : Nat) : Ordering :=
  if v < o then .lt else if v > o then .gt else .eq

/-- Model of `strconv.ParseInt(part, 10, 64)` on a prerelease part: an optional `-`
sign then digits, within the int64 range (a `+` sign cannot occur in a
part). -/
def parsePreInt (s : List Char) : Option Int :=
  match s with
  | [] => none
  | '-' :: rest =>
    if !rest.isEmpty && rest.all Char.isDigit && digitsToNat rest ≤ 2 ^ 63 then
      some (-(digitsToNat rest : Int))
    else none
  | _ =>
    if s.all Char.isDigit && digitsToNat s < 2 ^ 63 then some ((digitsToNat s : Int))
    else none

/-- Go byte-wise string comparison (the parts compared are ASCII). -/
def lexCmp : List Char → List Char → Ordering
  | [], [] => .eq
  | [], _ :: _ => .lt
  | _ :: _, [] => .gt
  | a :: as, b :: bs => if a < b then .lt else if b < a then .gt else lexCmp as bs

/-- The library's `comparePrePart`: equal strings tie; an empty part loses;
numbers sort below strings; numbers by value, strings byte-wise. -/
def comparePrePart (s o : List Char) : Ordering :=
  if s = o then .eq
  else if s = [] then (if o ≠ [] then .lt else .gt)
  else if o = [] then (if s ≠ [] then .gt else .lt)
  else
    match parsePreInt o, parsePreInt s with
    | none, none => if lexCmp s o = .gt then .gt else .lt
    | none, some _ => .lt
    | some _, none => .gt
    | some oi, some si => if si > oi then .gt else .lt

/-- The loop of the library's `comparePrerelease`: compare dot-separated
parts pairwise, the shorter list padded with empty parts. -/
def comparePreParts : List (List Char) → List (List Char) → Ordering
  | [], [] => .eq
  | [], o :: os =>
    match comparePrePart [] o with
    | .eq => comparePreParts [] os
    | r => r
  | s :: ss, [] =>
    match comparePrePart s [] with
    | .eq => comparePreParts ss []
    | r => r
  | s :: ss, o :: os =>
    match comparePrePart s o with
    | .eq => comparePreParts ss os
    | r => r
termination_by a b => a.length + b.length

/-- The library's `comparePrerelease`. -/
def comparePrerelease (s o : List Char) : Ordering :=
  comparePreParts (splitOnChar '.' s) (splitOnChar '.' o)

/-- Model of `semver.Version.Compare`: major, minor, patch, then prerelease (a
release sorts above any prerelease); metadata is ignored. -/
def semverCompare (v o : SemVer) : Ordering :=
  match compareSegment v.major o.major with
  | .eq =>
    match compareSegment v.minor o.minor with
    | .eq =>
      match compareSegment v.patch o.patch with
      | .eq =>
        if v.pre.isEmpty && o.pre.isEmpty then .eq
        else if v.pre.isEmpty then .gt
        else if o.pre.isEmpty then .lt
        else comparePrerelease v.pre o.pre
      | r => r
    | r => r
  | r => r

/-- Model of `isNonSemverTag` (update-docker-tags.go line 809): a tag is opaque when
`semver.NewVersion` fails on it. -/
def isNonSemverTag (tag : String) : Bool := (semverNewVersion tag).isNone

/-!
## Version resolution (`findLatestSemverTag`) and the rewrite driver

`sort.Sort(sort.Reverse(semver.Collection(versions)))` is modelled as a
descending insertion sort with the library comparison — the algorithm Go's
`sort.Sort` itself runs on short slices.  `sort.Sort` only guarantees that
the result is ordered (it is not a stable sort), and every theorem below
relies on the sorted order and element membership only, not on the
placement of compare-equal elements.  `fetchAllTags` is an HTTP call; the
tag list it returns is passed to `findLatestSemverTag` explicitly.
-/

/-- Insert into a descending-ordered list, before the first element the new
one is not `LessThan`. -/
def insertDesc {α : Type} (cmp : α → α → Ordering) (x : α) : List α → List α
  | [] => [x]
  | y :: ys => if cmp x y = .lt then y :: insertDesc cmp x ys else x :: y :: ys

/-- Descending insertion sort by `cmp`. -/
def sortDesc {α : Type} (cmp : α → α → Ordering) : List α → List α
  | [] => []
  | x :: xs => insertDesc cmp x (sortDesc cmp xs)

/-- The `r.constraint != nil` guarding of `constraint.Check(v)` in the
candidate loop: with no constraint every parsed version is kept. -/
def checkConstraint (constraint : Option (SemVer → Bool)) (v : SemVer) : Bool :=
  match constraint with
  | some c => c v
  | none => true

/-- The candidate loop of `findLatestSemverTag`: parse every tag, silently
skip unparseable ones, and keep the rest subject to the constraint. -/
def collectVersions (constraint : Option (SemVer → Bool)) (tags : List String) :
    List SemVer :=
  tags.filterMap (fun t =>
    match semverNewVersion t with
    | none => none
    | some v => if checkConstraint constraint v then some v else none)

/-- Model of `%q` formatting of a plain (escape-free) string. -/
def goQuote (s : String) : String := "\"" ++ s ++ "\""

/-- The core of `repository.findLatestSemverTag` (lines 817-846) after the tag-list
fetch: filter the candidates, fail when none survive, otherwise sort
descending and return the original literal of the first element. -/
def findLatestSemverTag (constraint : Option (SemVer → Bool)) (name : String)
    (tags : List String) : Except String String :=
  if (collectVersions constraint tags).isEmpty then
    .error ("no semver tags found for " ++ goQuote name)
  else
    match sortDesc semverCompare (collectVersions constraint tags) with
    | [] => .error ("no semver tags found for " ++ goQuote name)
    | v :: _ => .ok v.original

/-- The tag decision of the per-match callback in `updateDockerTags`
(lines 757-770): an opaque original tag is returned unchanged, otherwise
the latest matching semver tag is looked up among the repository's
candidate tags.  (The code has no enforce mode; opaque tags are always
passed through.) -/
def resolveTag (constraint : Option (SemVer → Bool)) (name : String)
    (candidateTags : List String) (originalTag : String) : Except String String :=
  if isNonSemverTag originalTag then .ok originalTag
  else findLatestSemverTag constraint name candidateTags

/-- The `<bound>` constraint of the v1 library, whose `Check` is
`v.Compare(bound) < 0`; used for the spec's `"<2.0.0"` example. -/
def ltConstraint (bound : SemVer) (v : SemVer) : Bool :=
  decide (semverCompare v bound = .lt)

/-- The `>bound` constraint of the v1 library, whose `Check` is
`v.Compare(bound) > 0`; used for the spec's `">2.0.0"` example. -/
def gtConstraint (bound : SemVer) (v : SemVer) : Bool :=
  decide (semverCompare v bound = .gt)

/-- The parsed `2.0.0` bound of the spec's constraint examples. -/
def v200 : SemVer := ⟨2, 0, 0, [], [], "2.0.0"⟩

deriving instance DecidableEq for Except

/-!
## Repository construction and the per-file driver

`updateDockerTags` reads a file, rewrites it in memory through
`replaceAllSubmatchFunc` with a per-match callback, and writes it back only
when the `replaceErr` side channel stayed `nil`.  The callback mutates only
`replaceErr` (last failure wins) and `printedPath` (observability only), so
it is a pure function of the match's group values; `processFile` models the
read-rewrite-write decision for one file, with the network collaborators as
an explicit `Registry` oracle.  Error wrapping follows `errors.Wrapf`,
which renders as `"<message>: <cause>"`.
-/

/-- Bool substring test: `needle` occurs contiguously in `hay`. -/
def containsSubList (needle hay : List Char) : Bool :=
  (List.range (hay.length + 1)).any (fun i => needle.isPrefixOf (hay.drop i))

/-- A `strings.Contains`-style substring test on strings. -/
def containsSub (needle hay : String) : Bool := containsSubList needle.data hay.data

/-- The `repository` struct (lines 801-807): registry/repo split of the
qualified name, the configured constraint, and the fetched token. -/
structure Repository where
  name : String
  registry : String
  repo : String
  constraint : Option (SemVer → Bool)
  authToken : String

/-- The external registry collaborators: `fetchAuthToken` (by repository
name), `fetchAllTags` (by registry URL and repo path), and
`fetchImageDigest` (by registry URL, repo path and tag). -/
structure Registry where
  authToken : String → Except String String
  tagsList : String → String → Except String (List String)
  digest : String → String → String → Except String String

/-- Model of `parseRegistry` (lines 871-879): fewer than three `/`-separated pieces
means Docker Hub; exactly three means a custom registry host; more is an
error. -/
def parseRegistry (reg : String) : Except String (String × String) :=
  let val := (splitOnChar '/' reg.data).map (fun l => String.mk l)
  if val.length < 3 then .ok ("https://index.docker.io/v2/", reg)
  else if val.length > 3 then
    .error ("parsing error, expected \" " ++ reg ++ " \" to contain only 3 / ")
  else .ok ("https://" ++ val.headD "" ++ "/v2/", val.getD 1 "" ++ "/" ++ val.getD 2 "")

/-- Model of `qualifyRepository` (lines 1063-1068): a name with no `/` is a library
image and becomes `library/<name>`. -/
def qualifyRepository (repositoryName : String) : String :=
  if repositoryName.data.contains '/' then repositoryName
  else "library/" ++ repositoryName

/-- Model of `newRepository` (lines 1039-1060): qualify the name first, then parse
the registry, fetch a token only for Docker Hub, and look up the constraint
under the qualified name. -/
def newRepository (ext : Registry) (constraints : String → Option (SemVer → Bool))
    (repositoryName : String) : Except String Repository :=
  let repositoryName := qualifyRepository repositoryName
  match parseRegistry repositoryName with
  | .error e => .error e
  | .ok (registry, repo) =>
    if registry = "https://index.docker.io/v2/" then
      match ext.authToken repositoryName with
      | .error e => .error ("when fetching auth token: " ++ e)
      | .ok token => .ok ⟨repositoryName, registry, repo, constraints repositoryName, token⟩
    else .ok ⟨repositoryName, registry, repo, constraints repositoryName, ""⟩

/-- The `repository.findLatestSemverTag` method: fetch the tag list (with
its `when fetching all tags` wrap on failure) and resolve against it. -/
def repositoryFindLatestSemverTag (ext : Registry) (r : Repository) :
    Except String String :=
  match ext.tagsList r.registry r.repo with
  | .error e => .error ("when fetching all tags: " ++ e)
  | .ok tags => findLatestSemverTag r.constraint r.name tags

/-- The per-match callback of `updateDockerTags` (lines 748-788): returns
the (possibly updated) groups and the value the callback assigns to
`replaceErr` (`none` when the match succeeded). -/
def tagCallback (ext : Registry) (constraints : String → Option (SemVer → Bool))
    (groups : List (List Char)) : List (List Char) × Option String :=
  let repositoryName := String.mk (groups.getD 0 [])
  match newRepository ext constraints repositoryName with
  | .error e =>
    (groups, some ("when initializing repository " ++ goQuote repositoryName ++ ": " ++ e))
  | .ok repository =>
    let originalTag := String.mk (groups.getD 1 [])
    let newTagE : Except String String :=
      if isNonSemverTag originalTag then .ok originalTag
      else repositoryFindLatestSemverTag ext repository
    match newTagE with
    | .error e =>
      (groups, some ("when finding the latest semver tag for '" ++ repository.name ++
        ":" ++ originalTag ++ "': " ++ e))
    | .ok newTag =>
      match ext.digest repository.registry repository.repo newTag with
      | .error e =>
        (groups, some ("when fetching image digest for '" ++ repository.name ++
          ":" ++ newTag ++ "': " ++ e))
      | .ok newDigest =>
        ((groups.set 1 newTag.data).set 2 newDigest.data, none)

/-- The final value of the `replaceErr` side channel after the rewrite of a
file: the error of the last failing match, if any. -/
def replaceErrOf (ext : Registry) (constraints : String → Option (SemVer → Bool))
    (src : List Char) (matchList : List RegexMatch) : Option String :=
  (matchList.filterMap
    (fun m => (tagCallback ext constraints (extractGroups src m.groups)).2)).getLast?

/-- One file's processing in `updateDockerTags` (lines 739-795): rewrite
the buffer, then either report the wrapped `replaceErr` (the file is not
written) or return the rewritten bytes to be written back. -/
def processFile (ext : Registry) (constraints : String → Option (SemVer → Bool))
    (path : String) (src : List Char) (matchList : List RegexMatch) :
    Except String (List Char) :=
  let data := replaceAllSubmatchFunc src matchList
    (fun groups => (tagCallback ext constraints groups).1)
  match replaceErrOf ext constraints src matchList with
  | some e => .error ("when replacing image tags in " ++ goQuote path ++ ": " ++ e)
  | none => .ok data

/-!
## The default reference pattern

`defaultPattern` (line 667) is
`\b([[:alnum:]/\.\-]+):(.+)@(sha256:[[:alnum:]]+)\b`.  Only match
*existence* is needed for the pattern-boundary claim, so the Go regexp
engine is modelled by the predicate `patternHasMatch`: some substring of
the input decomposes as `<repo>:<tag>@sha256:<hex>` with the two `\b`
word-boundary conditions (the POSIX classes are ASCII, `.` does not match a
newline, and `\b` separates a word character — `[0-9A-Za-z_]` — from a
non-word character or the text edge). -/

/-- Go regexp `\w` (ASCII word character), as used by `\b`. -/
def isWordChar (c : Char) : Bool := c.isAlpha || c.isDigit || c == '_'

/-- The class `[[:alnum:]/\.\-]` — a repository-name character. -/
def isRepoChar (c : Char) : Bool := c.isAlpha || c.isDigit || c == '/' || c == '.' || c == '-'

/-- The `.` in the tag group: any character except newline. -/
def isTagChar (c : Char) : Bool := c != '\n'

/-- The class `[[:alnum:]]` — a digest character. -/
def isAlnumChar (c : Char) : Bool := c.isAlpha || c.isDigit

/-- The `\b` boundary at the position between an optional left and right character. -/
def wordBoundary (l r : Option Char) : Bool :=
  (match l with | some c => isWordChar c | none => false) !=
  (match r with | some c => isWordChar c | none => false)

/-- The body of `defaultPattern`: a segment of the form
`<repo>:<tag>@sha256:<hex>` with each piece nonempty and over its character
class. -/
def segShape (seg : List Char) : Prop :=
  ∃ repo tag hex,
    seg = repo ++ ':' :: (tag ++ '@' ::
      ('s' :: 'h' :: 'a' :: '2' :: '5' :: '6' :: ':' :: hex)) ∧
    repo ≠ [] ∧ repo.all isRepoChar = true ∧ tag ≠ [] ∧ tag.all isTagChar = true ∧
    hex ≠ [] ∧ hex.all isAlnumChar = true

/-- The pattern `defaultPattern` matches `s` at the decomposition `pre ++ seg ++ post`:
the segment has the reference shape and both ends sit on word boundaries. -/
def patternMatchAt (s pre seg post : List Char) : Prop :=
  s = pre ++ seg ++ post ∧ segShape seg ∧
  wordBoundary pre.getLast? seg.head? = true ∧
  wordBoundary seg.getLast? post.head? = true

/-- The pattern `defaultPattern` has at least one match somewhere in `s`. -/
def patternHasMatch (s : List Char) : Prop := ∃ pre seg post, patternMatchAt s pre seg post

/-!
## Ordering facts about the library comparison

`comparePrePart` is not antisymmetric (two distinct numeric parts of equal
value, such as `01` and `1`, compare `.lt` in both directions), so the
lemmas below establish exactly what descending sorting needs: reflexivity,
`gt`-to-`lt` swapping, and the linearity property `cmp z x = .gt → cmp z y
= .gt ∨ cmp x y = .lt`.
-/

theorem lexCmp_eq_iff {a b : List Char} : lexCmp a b = .eq ↔ a = b := by
  induction a generalizing b with
  | nil => cases b <;> simp [lexCmp]
  | cons c as ih =>
    cases b with
    | nil => simp [lexCmp]
    | cons d bs =>
      simp only [lexCmp]
      split_ifs with h1 h2
      · constructor
        · intro h; exact absurd h (by simp)
        · intro h
          injection h with hc _
          exact absurd (hc ▸ h1) (lt_irrefl c)
      · constructor
        · intro h; exact absurd h (by simp)
        · intro h
          injection h with hc _
          exact absurd (hc ▸ h2) (lt_irrefl c)
      · have hcd : c = d := le_antisymm (not_lt.mp h2) (not_lt.mp h1)
        subst hcd
        simpa using ih

theorem lexCmp_swap (a b : List Char) : lexCmp b a = (lexCmp a b).swap := by
  induction a generalizing b with
  | nil => cases b <;> simp [lexCmp, Ordering.swap]
  | cons c as ih =>
    cases b with
    | nil => simp [lexCmp, Ordering.swap]
    | cons d bs =>
      simp only [lexCmp]
      rcases lt_trichotomy c d with h | h | h
      · rw [if_neg (asymm h), if_pos h, if_pos h]
        rfl
      · subst h
        rw [if_neg (lt_irrefl c), if_neg (lt_irrefl c), if_neg (lt_irrefl c),
          if_neg (lt_irrefl c)]
        exact ih bs
      · rw [if_pos h, if_neg (asymm h), if_pos h]
        rfl

theorem lexCmp_trans_gt {a b c : List Char} (h1 : lexCmp a b = .gt)
    (h2 : lexCmp b c = .gt) : lexCmp a c = .gt := by
  induction a generalizing b c with
  | nil =>
    exfalso
    cases b <;> simp [lexCmp] at h1
  | cons x as ih =>
    cases b with
    | nil => cases c <;> simp [lexCmp] at h2
    | cons y bs =>
      cases c with
      | nil => simp [lexCmp]
      | cons z cs =>
        simp only [lexCmp] at h1 h2 ⊢
        by_cases hxy : x < y
        · rw [if_pos hxy] at h1; exact absurd h1 (by simp)
        rw [if_neg hxy] at h1
        by_cases hyz : y < z
        · rw [if_pos hyz] at h2; exact absurd h2 (by simp)
        rw [if_neg hyz] at h2
        by_cases hyx : y < x
        · by_cases hzy : z < y
          · have hzx : z < x := lt_trans hzy hyx
            rw [if_neg (asymm hzx), if_pos hzx]
          · have hyz' : y = z := le_antisymm (not_lt.mp hzy) (not_lt.mp hyz)
            subst hyz'
            rw [if_neg hxy, if_pos hyx]
        · have hxy' : x = y := le_antisymm (not_lt.mp hyx) (not_lt.mp hxy)
          subst hxy'
          rw [if_neg hyx] at h1
          by_cases hzy : z < x
          · rw [if_neg (asymm hzy), if_pos hzy]
          · have hxz : x = z := le_antisymm (not_lt.mp hzy) (not_lt.mp hyz)
            subst hxz
            rw [if_neg hyz] at h2
            rw [if_neg (lt_irrefl x), if_neg (lt_irrefl x)]
            exact ih h1 h2

theorem cpp_self (s : List Char) : comparePrePart s s = .eq := by
  simp [comparePrePart]

theorem cpp_nil_lt {o : List Char} (h : o ≠ []) : comparePrePart [] o = .lt := by
  unfold comparePrePart
  rw [if_neg (by exact fun hh => h hh.symm), if_pos rfl, if_pos h]

theorem cpp_gt_nil {s : List Char} (h : s ≠ []) : comparePrePart s [] = .gt := by
  unfold comparePrePart
  rw [if_neg h, if_neg h, if_pos rfl, if_pos h]

theorem parsePreInt_ne_nil {s : List Char} {i : Int} (h : parsePreInt s = some i) :
    s ≠ [] := by
  intro hs
  subst hs
  simp [parsePreInt] at h

theorem cpp_num_num {s o : List Char} {si oi : Int} (hso : s ≠ o)
    (hs : parsePreInt s = some si) (ho : parsePreInt o = some oi) :
    comparePrePart s o = if si > oi then .gt else .lt := by
  unfold comparePrePart
  rw [if_neg hso, if_neg (parsePreInt_ne_nil hs), if_neg (parsePreInt_ne_nil ho), hs, ho]

theorem cpp_str_num {s o : List Char} {oi : Int} (hs : parsePreInt s = none)
    (hs' : s ≠ []) (ho : parsePreInt o = some oi) : comparePrePart s o = .gt := by
  have hso : s ≠ o := by
    intro h; subst h; rw [hs] at ho; exact absurd ho (by simp)
  unfold comparePrePart
  rw [if_neg hso, if_neg hs', if_neg (parsePreInt_ne_nil ho), hs, ho]

theorem cpp_num_str {s o : List Char} {si : Int} (hs : parsePreInt s = some si)
    (ho : parsePreInt o = none) (ho' : o ≠ []) : comparePrePart s o = .lt := by
  have hso : s ≠ o := by
    intro h; subst h; rw [hs] at ho; exact absurd ho (by simp)
  unfold comparePrePart
  rw [if_neg hso, if_neg (parsePreInt_ne_nil hs), if_neg ho', hs, ho]

theorem cpp_str_str {s o : List Char} (hso : s ≠ o) (hs : parsePreInt s = none)
    (ho : parsePreInt o = none) (hs' : s ≠ []) (ho' : o ≠ []) :
    comparePrePart s o = if lexCmp s o = .gt then .gt else .lt := by
  unfold comparePrePart
  rw [if_neg hso, if_neg hs', if_neg ho', hs, ho]

theorem cpp_eq_iff {s o : List Char} : comparePrePart s o = .eq ↔ s = o := by
  constructor
  · intro h
    by_contra hso
    by_cases hs : s = []
    · subst hs
      rw [cpp_nil_lt (fun hh => hso hh.symm)] at h
      exact absurd h (by simp)
    by_cases ho : o = []
    · subst ho
      rw [cpp_gt_nil hs] at h
      exact absurd h (by simp)
    cases hps : parsePreInt s with
    | none =>
      cases hpo : parsePreInt o with
      | none =>
        rw [cpp_str_str hso hps hpo hs ho] at h
        split_ifs at h
      | some oi =>
        rw [cpp_str_num hps hs hpo] at h
        exact absurd h (by simp)
    | some si =>
      cases hpo : parsePreInt o with
      | none =>
        rw [cpp_num_str hps hpo ho] at h
        exact absurd h (by simp)
      | some oi =>
        rw [cpp_num_num hso hps hpo] at h
        split_ifs at h
  · intro h
    subst h
    exact cpp_self s

theorem cpp_gt_swap {s o : List Char} (h : comparePrePart s o = .gt) :
    comparePrePart o s = .lt := by
  by_cases hso : s = o
  · subst hso; rw [cpp_self] at h; exact absurd h (by simp)
  by_cases hs : s = []
  · subst hs
    rw [cpp_nil_lt (fun hh => hso hh.symm)] at h
    exact absurd h (by simp)
  by_cases ho : o = []
  · subst ho
    exact cpp_nil_lt hs
  cases hps : parsePreInt s with
  | none =>
    cases hpo : parsePreInt o with
    | none =>
      rw [cpp_str_str hso hps hpo hs ho] at h
      have hl : lexCmp s o = .gt := by
        by_contra hq
        rw [if_neg hq] at h
        exact absurd h (by simp)
      rw [cpp_str_str (Ne.symm hso) hpo hps ho hs, if_neg]
      rw [lexCmp_swap, hl]
      simp [Ordering.swap]
    | some oi =>
      exact cpp_num_str hpo hps hs
  | some si =>
    cases hpo : parsePreInt o with
    | none =>
      rw [cpp_num_str hps hpo ho] at h
      exact absurd h (by simp)
    | some oi =>
      rw [cpp_num_num hso hps hpo] at h
      have hgt : si > oi := by
        by_contra hq
        rw [if_neg hq] at h
        exact absurd h (by simp)
      rw [cpp_num_num (Ne.symm hso) hpo hps, if_neg (by omega)]

theorem cpp_L {z x : List Char} (h : comparePrePart z x = .gt) (y : List Char) :
    comparePrePart z y = .gt ∨ comparePrePart x y = .lt := by
  by_cases hzx : z = x
  · subst hzx; rw [cpp_self] at h; exact absurd h (by simp)
  by_cases hz : z = []
  · subst hz
    rw [cpp_nil_lt (fun hh => hzx hh.symm)] at h
    exact absurd h (by simp)
  by_cases hx : x = []
  · subst hx
    by_cases hy : y = []
    · subst hy; exact Or.inl (cpp_gt_nil hz)
    · exact Or.inr (cpp_nil_lt hy)
  by_cases hy : y = []
  · subst hy; exact Or.inl (cpp_gt_nil hz)
  cases hpz : parsePreInt z with
  | none =>
    cases hpx : parsePreInt x with
    | none =>
      rw [cpp_str_str hzx hpz hpx hz hx] at h
      have hlzx : lexCmp z x = .gt := by
        by_contra hq; rw [if_neg hq] at h; exact absurd h (by simp)
      cases hpy : parsePreInt y with
      | some yi => exact Or.inl (cpp_str_num hpz hz hpy)
      | none =>
        by_cases hzy : z = y
        · subst hzy
          right
          rw [cpp_str_str (Ne.symm hzx) hpx hpz hx hz, if_neg]
          rw [lexCmp_swap, hlzx]
          simp [Ordering.swap]
        · cases hlc : lexCmp z y with
          | gt =>
            left
            rw [cpp_str_str hzy hpz hpy hz hy, if_pos hlc]
          | eq => exact absurd (lexCmp_eq_iff.mp hlc) hzy
          | lt =>
            right
            have hyz : lexCmp y z = .gt := by
              rw [lexCmp_swap, hlc]; rfl
            have hyx : lexCmp y x = .gt := lexCmp_trans_gt hyz hlzx
            have hxy : lexCmp x y = .lt := by
              rw [lexCmp_swap, hyx]; rfl
            have hxy' : x ≠ y := by
              intro hh; subst hh
              rw [lexCmp_eq_iff.mpr rfl] at hxy
              exact absurd hxy (by simp)
            rw [cpp_str_str hxy' hpx hpy hx hy, if_neg (by rw [hxy]; simp)]
    | some xi =>
      cases hpy : parsePreInt y with
      | some yi => exact Or.inl (cpp_str_num hpz hz hpy)
      | none => exact Or.inr (cpp_num_str hpx hpy hy)
  | some zi =>
    cases hpx : parsePreInt x with
    | none =>
      rw [cpp_num_str hpz hpx hx] at h
      exact absurd h (by simp)
    | some xi =>
      rw [cpp_num_num hzx hpz hpx] at h
      have hzi : zi > xi := by
        by_contra hq; rw [if_neg hq] at h; exact absurd h (by simp)
      cases hpy : parsePreInt y with
      | none => exact Or.inr (cpp_num_str hpx hpy hy)
      | some yi =>
        by_cases hzy : z = y
        · subst hzy
          right
          rw [hpz] at hpy
          injection hpy with hzi'
          have hxy : x ≠ z := fun hh => by
            rw [hh, hpz] at hpx
            injection hpx with he
            omega
          rw [cpp_num_num hxy hpx hpz, if_neg (by omega)]
        · by_cases hzyi : zi > yi
          · left
            rw [cpp_num_num hzy hpz hpy, if_pos hzyi]
          · right
            have hxy : x ≠ y := by
              intro hh; subst hh
              rw [hpx] at hpy
              injection hpy with he
              omega
            rw [cpp_num_num hxy hpx hpy, if_neg (by omega)]

theorem cpp_nil_not_gt (w : List Char) : comparePrePart [] w ≠ .gt := by
  by_cases hw : w = []
  · subst hw; rw [cpp_self]; simp
  · rw [cpp_nil_lt hw]; simp

theorem cpl_unfold {a b : List (List Char)} (h : a ≠ [] ∨ b ≠ []) :
    comparePreParts a b =
      match comparePrePart (a.headD []) (b.headD []) with
      | .eq => comparePreParts a.tail b.tail
      | r => r := by
  match a, b with
  | [], [] => simp at h
  | [], o :: os => simp only [comparePreParts, List.headD_nil, List.headD_cons,
      List.tail_nil, List.tail_cons]
  | s :: ss, [] => simp only [comparePreParts, List.headD_nil, List.headD_cons,
      List.tail_nil, List.tail_cons]
  | s :: ss, o :: os => simp only [comparePreParts, List.headD_cons, List.tail_cons]

theorem cpl_refl (l : List (List Char)) : comparePreParts l l = .eq := by
  induction l with
  | nil => simp [comparePreParts]
  | cons s ss ih => simp [comparePreParts, cpp_self, ih]

theorem cpl_gt_swap_aux : ∀ n (a b : List (List Char)), a.length + b.length ≤ n →
    comparePreParts a b = .gt → comparePreParts b a = .lt := by
  intro n
  induction n with
  | zero =>
    intro a b hlen h
    match a, b with
    | [], [] => simp [comparePreParts] at h
    | [], o :: os => simp at hlen
    | s :: ss, o :: os => simp at hlen
    | s :: ss, [] => simp at hlen
  | succ n ih =>
    intro a b hlen h
    by_cases hab : a = [] ∧ b = []
    · obtain ⟨h1, h2⟩ := hab; subst h1; subst h2; simp [comparePreParts] at h
    have hne : a ≠ [] ∨ b ≠ [] := by tauto
    rw [cpl_unfold hne] at h
    cases hc : comparePrePart (a.headD []) (b.headD []) with
    | lt => rw [hc] at h; exact absurd h (by simp)
    | gt =>
      rw [hc] at h
      rw [cpl_unfold (Or.symm hne), cpp_gt_swap hc]
    | eq =>
      rw [hc] at h
      have hhd : a.headD [] = b.headD [] := cpp_eq_iff.mp hc
      have hlen' : b.tail.length + a.tail.length ≤ n := by
        have h1 := List.length_tail a
        have h2 := List.length_tail b
        have : 0 < a.length ∨ 0 < b.length := by
          rcases hne with h' | h'
          · exact Or.inl (List.length_pos.mpr h')
          · exact Or.inr (List.length_pos.mpr h')
        omega
      have := ih a.tail b.tail (by omega) h
      rw [cpl_unfold (Or.symm hne), ← hhd, cpp_self]
      exact this

theorem cpl_gt_swap {a b : List (List Char)} (h : comparePreParts a b = .gt) :
    comparePreParts b a = .lt :=
  cpl_gt_swap_aux (a.length + b.length) a b le_rfl h

theorem cpl_L_aux : ∀ n (z x y : List (List Char)),
    z.length + x.length + y.length ≤ n → comparePreParts z x = .gt →
    comparePreParts z y = .gt ∨ comparePreParts x y = .lt := by
  intro n
  induction n with
  | zero =>
    intro z x y hlen h
    match z, x, y with
    | [], [], [] => simp [comparePreParts] at h
    | [], [], _ :: _ => simp at hlen
    | [], _ :: _, _ => simp at hlen
    | _ :: _, _, _ => simp at hlen
  | succ n ih =>
    intro z x y hlen h
    by_cases hzx0 : z = [] ∧ x = []
    · obtain ⟨h1, h2⟩ := hzx0; subst h1; subst h2; simp [comparePreParts] at h
    have hne : z ≠ [] ∨ x ≠ [] := by tauto
    rw [cpl_unfold hne] at h
    cases hc : comparePrePart (z.headD []) (x.headD []) with
    | lt => rw [hc] at h; exact absurd h (by simp)
    | gt =>
      have hz : z ≠ [] := by
        intro hz0
        subst hz0
        exact cpp_nil_not_gt _ hc
      rcases cpp_L hc (y.headD []) with hzy | hxy
      · left
        rw [cpl_unfold (Or.inl hz), hzy]
      · right
        have hxyne : x ≠ [] ∨ y ≠ [] := by
          by_contra hq
          push_neg at hq
          obtain ⟨h1, h2⟩ := hq; subst h1; subst h2
          rw [show (([] : List (List Char)).headD []) = ([] : List Char) from rfl,
            cpp_self] at hxy
          exact absurd hxy (by simp)
        rw [cpl_unfold hxyne, hxy]
    | eq =>
      rw [hc] at h
      have hhd : z.headD [] = x.headD [] := cpp_eq_iff.mp hc
      cases hcy : comparePrePart (z.headD []) (y.headD []) with
      | gt =>
        left
        have hzyne : z ≠ [] ∨ y ≠ [] := by
          by_contra hq
          push_neg at hq
          obtain ⟨h1, h2⟩ := hq; subst h1; subst h2
          rw [show (([] : List (List Char)).headD []) = ([] : List Char) from rfl,
            cpp_self] at hcy
          exact absurd hcy (by simp)
        rw [cpl_unfold hzyne, hcy]
      | lt =>
        right
        have hxyne : x ≠ [] ∨ y ≠ [] := by
          by_contra hq
          push_neg at hq
          obtain ⟨h1, h2⟩ := hq; subst h1; subst h2
          rw [hhd] at hcy
          rw [show (([] : List (List Char)).headD []) = ([] : List Char) from rfl,
            cpp_self] at hcy
          exact absurd hcy (by simp)
        rw [cpl_unfold hxyne, ← hhd, hcy]
      | eq =>
        have hhy : z.headD [] = y.headD [] := cpp_eq_iff.mp hcy
        have hlen' : z.tail.length + x.tail.length + y.tail.length ≤ n := by
          have h1 := List.length_tail z
          have h2 := List.length_tail x
          have h3 := List.length_tail y
          have : 0 < z.length ∨ 0 < x.length := by
            rcases hne with h' | h'
            · exact Or.inl (List.length_pos.mpr h')
            · exact Or.inr (List.length_pos.mpr h')
          omega
        rcases ih z.tail x.tail y.tail hlen' h with hl | hr
        · by_cases hzy0 : z = [] ∧ y = []
          · obtain ⟨h1, h2⟩ := hzy0; subst h1; subst h2
            simp [comparePreParts] at hl
          · left
            rw [cpl_unfold (by tauto), hcy]
            exact hl
        · by_cases hxy0 : x = [] ∧ y = []
          · obtain ⟨h1, h2⟩ := hxy0; subst h1; subst h2
            simp [comparePreParts] at hr
          · right
            rw [cpl_unfold (by tauto), ← hhd, hcy]
            exact hr

theorem cpl_L {z x : List (List Char)} (h : comparePreParts z x = .gt)
    (y : List (List Char)) :
    comparePreParts z y = .gt ∨ comparePreParts x y = .lt :=
  cpl_L_aux (z.length + x.length + y.length) z x y le_rfl h

theorem comparePrerelease_refl (a : List Char) : comparePrerelease a a = .eq :=
  cpl_refl _

theorem comparePrerelease_gt_swap {a b : List Char}
    (h : comparePrerelease a b = .gt) : comparePrerelease b a = .lt :=
  cpl_gt_swap h

theorem comparePrerelease_L {z x : List Char} (h : comparePrerelease z x = .gt)
    (y : List Char) : comparePrerelease z y = .gt ∨ comparePrerelease x y = .lt :=
  cpl_L h _

theorem compareSegment_eq_iff {a b : Nat} : compareSegment a b = .eq ↔ a = b := by
  unfold compareSegment
  split_ifs with h1 h2
  · constructor
    · intro h; exact absurd h (by simp)
    · intro h; omega
  · constructor
    · intro h; exact absurd h (by simp)
    · intro h; omega
  · constructor
    · intro h; omega
    · intro h; rfl

theorem compareSegment_lt_iff {a b : Nat} : compareSegment a b = .lt ↔ a < b := by
  unfold compareSegment
  split_ifs with h1 h2
  · constructor
    · intro h; exact h1
    · intro h; rfl
  · constructor
    · intro h; exact absurd h (by simp)
    · intro h; exact absurd h h1
  · constructor
    · intro h; exact absurd h (by simp)
    · intro h; exact absurd h h1

theorem compareSegment_gt_iff {a b : Nat} : compareSegment a b = .gt ↔ b < a := by
  unfold compareSegment
  split_ifs with h1 h2
  · constructor
    · intro h; exact absurd h (by simp)
    · intro h; omega
  · constructor
    · intro h; exact h2
    · intro h; rfl
  · constructor
    · intro h; exact absurd h (by simp)
    · intro h; omega

theorem semverCompare_refl (v : SemVer) : semverCompare v v = .eq := by
  have hcs : ∀ n : Nat, compareSegment n n = .eq := fun n => compareSegment_eq_iff.mpr rfl
  simp only [semverCompare, hcs]
  by_cases hp : v.pre.isEmpty
  · simp [hp]
  · simp [hp, comparePrerelease_refl]

theorem semverCompare_not_gt_self (v : SemVer) : semverCompare v v ≠ .gt := by
  rw [semverCompare_refl]
  simp

theorem semverCompare_L {z x : SemVer} (h : semverCompare z x = .gt) (y : SemVer) :
    semverCompare z y = .gt ∨ semverCompare x y = .lt := by
  unfold semverCompare at h ⊢
  cases hM : compareSegment z.major x.major with
  | lt => simp [hM] at h
  | gt =>
    have hzx : x.major < z.major := compareSegment_gt_iff.mp hM
    rcases Nat.lt_trichotomy y.major z.major with hy | hy | hy
    · left; simp only [compareSegment_gt_iff.mpr hy]
    · right; simp only [compareSegment_lt_iff.mpr (show x.major < y.major by omega)]
    · right; simp only [compareSegment_lt_iff.mpr (show x.major < y.major by omega)]
  | eq =>
    have hM' : z.major = x.major := compareSegment_eq_iff.mp hM
    simp only [hM] at h
    cases hMy : compareSegment z.major y.major with
    | gt => left; simp only [hMy]
    | lt =>
      right
      simp only [show compareSegment x.major y.major = .lt from hM' ▸ hMy]
    | eq =>
      have hxM : compareSegment x.major y.major = .eq := hM' ▸ hMy
      simp only [hMy, hxM]
      cases hN : compareSegment z.minor x.minor with
      | lt => simp [hN] at h
      | gt =>
        have hzx : x.minor < z.minor := compareSegment_gt_iff.mp hN
        rcases Nat.lt_trichotomy y.minor z.minor with hy | hy | hy
        · left; simp only [compareSegment_gt_iff.mpr hy]
        · right; simp only [compareSegment_lt_iff.mpr (show x.minor < y.minor by omega)]
        · right; simp only [compareSegment_lt_iff.mpr (show x.minor < y.minor by omega)]
      | eq =>
        have hN' : z.minor = x.minor := compareSegment_eq_iff.mp hN
        simp only [hN] at h
        cases hNy : compareSegment z.minor y.minor with
        | gt => left; simp only [hNy]
        | lt =>
          right
          simp only [show compareSegment x.minor y.minor = .lt from hN' ▸ hNy]
        | eq =>
          have hxN : compareSegment x.minor y.minor = .eq := hN' ▸ hNy
          simp only [hNy, hxN]
          cases hP : compareSegment z.patch x.patch with
          | lt => simp [hP] at h
          | gt =>
            have hzx : x.patch < z.patch := compareSegment_gt_iff.mp hP
            rcases Nat.lt_trichotomy y.patch z.patch with hy | hy | hy
            · left; simp only [compareSegment_gt_iff.mpr hy]
            · right
              simp only [compareSegment_lt_iff.mpr (show x.patch < y.patch by omega)]
            · right
              simp only [compareSegment_lt_iff.mpr (show x.patch < y.patch by omega)]
          | eq =>
            have hP' : z.patch = x.patch := compareSegment_eq_iff.mp hP
            simp only [hP] at h
            cases hPy : compareSegment z.patch y.patch with
            | gt => left; simp only [hPy]
            | lt =>
              right
              simp only [show compareSegment x.patch y.patch = .lt from hP' ▸ hPy]
            | eq =>
              have hxP : compareSegment x.patch y.patch = .eq := hP' ▸ hPy
              simp only [hPy, hxP]
              by_cases hzp : z.pre.isEmpty <;> by_cases hxp : x.pre.isEmpty
              · simp [hzp, hxp] at h
              · by_cases hyp : y.pre.isEmpty
                · right; simp [hxp, hyp]
                · left; simp [hzp, hyp]
              · simp [hzp, hxp] at h
              · simp only [hzp, hxp] at h
                simp only [Bool.false_and, if_false] at h
                by_cases hyp : y.pre.isEmpty
                · right; simp [hxp, hyp]
                · rcases comparePrerelease_L (by simpa using h) y.pre with hl | hr
                  · left; simp [hzp, hyp, hl]
                  · right; simp [hxp, hyp, hr]

theorem insertDesc_ne_nil {α : Type} (cmp : α → α → Ordering) (x : α) (l : List α) :
    insertDesc cmp x l ≠ [] := by
  cases l with
  | nil => simp [insertDesc]
  | cons a l =>
    simp only [insertDesc]
    split_ifs <;> simp

theorem mem_insertDesc {α : Type} (cmp : α → α → Ordering) (x : α) (l : List α) (y : α) :
    y ∈ insertDesc cmp x l ↔ y = x ∨ y ∈ l := by
  induction l with
  | nil => simp [insertDesc]
  | cons a l ih =>
    simp only [insertDesc]
    split_ifs with hc
    · simp only [List.mem_cons, ih]
      tauto
    · simp only [List.mem_cons]

theorem mem_sortDesc {α : Type} (cmp : α → α → Ordering) (l : List α) (y : α) :
    y ∈ sortDesc cmp l ↔ y ∈ l := by
  induction l with
  | nil => simp [sortDesc]
  | cons a l ih =>
    simp only [sortDesc, mem_insertDesc, ih, List.mem_cons]

/-- The head of the descending sort is a maximal element: no input element
compares strictly greater than it.  Requires only reflexivity and the
linearity property of the comparison, which hold for `semverCompare` even
though it is not antisymmetric. -/
theorem sortDesc_head_max {α : Type} (cmp : α → α → Ordering)
    (hrefl : ∀ a, cmp a a ≠ .gt)
    (hL : ∀ z x, cmp z x = .gt → ∀ y, cmp z y = .gt ∨ cmp x y = .lt) :
    ∀ (l : List α) (x : α) (rest : List α), sortDesc cmp l = x :: rest →
      ∀ y ∈ l, cmp y x ≠ .gt := by
  intro l
  induction l with
  | nil => intro x rest h; simp [sortDesc] at h
  | cons a l ih =>
    intro x rest h y hy
    rw [sortDesc] at h
    cases hs : sortDesc cmp l with
    | nil =>
      rw [hs] at h
      simp only [insertDesc] at h
      injection h with hxa hrest
      subst hxa
      have hl : l = [] := by
        cases l with
        | nil => rfl
        | cons b l' =>
          rw [sortDesc] at hs
          exact absurd hs (insertDesc_ne_nil cmp b (sortDesc cmp l'))
      subst hl
      rcases List.mem_cons.mp hy with hya | hyl
      · subst hya; exact hrefl y
      · simp at hyl
    | cons b t =>
      rw [hs] at h
      rw [insertDesc] at h
      split_ifs at h with hab
      · injection h with hxb hrest
        subst hxb
        rcases List.mem_cons.mp hy with hya | hyl
        · subst hya
          rw [hab]
          simp
        · exact ih b t hs y hyl
      · injection h with hxa hrest
        subst hxa
        rcases List.mem_cons.mp hy with hya | hyl
        · subst hya; exact hrefl y
        · intro hq
          rcases hL y a hq b with h1 | h2
          · exact ih b t hs y hyl h1
          · exact hab h2

theorem semverNewVersion_original {t : String} {v : SemVer}
    (h : semverNewVersion t = some v) : v.original = t := by
  unfold semverNewVersion at h
  cases hp : semverParse t.data with
  | none => rw [hp] at h; exact absurd h (by simp)
  | some q =>
    obtain ⟨maj, mnr, pat, pre, md⟩ := q
    rw [hp] at h
    injection h with hv
    rw [← hv]

theorem mem_collectVersions {c : Option (SemVer → Bool)} {tags : List String}
    {v : SemVer} :
    v ∈ collectVersions c tags ↔
      ∃ t ∈ tags, semverNewVersion t = some v ∧ checkConstraint c v = true := by
  unfold collectVersions
  rw [List.mem_filterMap]
  constructor
  · rintro ⟨t, ht, hf⟩
    cases hp : semverNewVersion t with
    | none => simp [hp] at hf
    | some w =>
      simp only [hp] at hf
      split_ifs at hf with hck
      injection hf with hw
      subst hw
      exact ⟨t, ht, hp, hck⟩
  · rintro ⟨t, ht, hp, hck⟩
    refine ⟨t, ht, ?_⟩
    simp [hp, hck]

/-- Inversion of a successful `findLatestSemverTag`: the result is the
original string of the head of the descending sort of the surviving
versions. -/
theorem findLatestSemverTag_ok {c : Option (SemVer → Bool)} {name s : String}
    {tags : List String} (h : findLatestSemverTag c name tags = .ok s) :
    ∃ v rest, sortDesc semverCompare (collectVersions c tags) = v :: rest ∧
      s = v.original := by
  unfold findLatestSemverTag at h
  split_ifs at h
  cases hs : sortDesc semverCompare (collectVersions c tags) with
  | nil => rw [hs] at h; exact absurd h (by simp)
  | cons v rest =>
    rw [hs] at h
    injection h with hv
    exact ⟨v, rest, rfl, hv.symm⟩

theorem isPrefixOf_append_self : ∀ (n b : List Char), n.isPrefixOf (n ++ b) = true
  | [], _ => by simp [List.isPrefixOf]
  | c :: cs, b => by
    simp [List.isPrefixOf, isPrefixOf_append_self cs b]

theorem containsSubList_append (n a b : List Char) :
    containsSubList n (a ++ n ++ b) = true := by
  unfold containsSubList
  rw [List.any_eq_true]
  refine ⟨a.length, ?_, ?_⟩
  · rw [List.mem_range]
    simp only [List.length_append]
    omega
  · rw [List.append_assoc, List.drop_left]
    exact isPrefixOf_append_self n b

theorem containsSub_append (n a b : String) : containsSub n (a ++ n ++ b) = true := by
  unfold containsSub
  rw [show (a ++ n ++ b).data = a.data ++ n.data ++ b.data from by
    simp [String.data_append]]
  exact containsSubList_append n.data a.data b.data

theorem containsSub_of_eq_append {n h a b : String} (he : h = a ++ n ++ b) :
    containsSub n h = true := by
  rw [he]
  exact containsSub_append n a b

theorem splitOnChar_not_mem {sep : Char} {l : List Char}
    (h : l.contains sep = false) : splitOnChar sep l = [l] := by
  induction l with
  | nil => rfl
  | cons c rest ih =>
    rw [List.contains_cons] at h
    simp only [Bool.or_eq_false_iff, beq_eq_false_iff_ne] at h
    obtain ⟨h1, h2⟩ := h
    have hcs : ¬(c = sep) := fun hh => h1 hh.symm
    simp only [splitOnChar, if_neg hcs, ih h2]

/-!
## Claim theorems
-/

/-- C1: for every pattern and match-count limit (i.e. for every well-formed
match list they produce) and every input buffer, if the callback returns
exactly the original byte values for every capture group of every match,
`replaceAllSubmatchFunc` returns the input buffer byte-for-byte. -/
theorem c1_identity_rewrite (src : List Char) (matchList : List RegexMatch)
    (repl : List (List Char) → List (List Char))
    (hv : validMatches src.length 0 matchList = true)
    (hr : ∀ m ∈ matchList, repl (extractGroups src m.groups) = extractGroups src m.groups) :
    replaceAllSubmatchFunc src matchList repl = src := by
  unfold replaceAllSubmatchFunc
  rw [replaceLoop_id src repl hv hr]
  exact slice_zero_length src

/-- Witness for C1 at a concrete buffer, match and identity callback. -/
theorem c1_identity_rewrite_witness :
    validMatches "x sourcegraph/server:3.12@sha256:abc".data.length 0
      [⟨2, 36, [(2, 20), (21, 25), (26, 36)]⟩] = true ∧
    replaceAllSubmatchFunc "x sourcegraph/server:3.12@sha256:abc".data
      [⟨2, 36, [(2, 20), (21, 25), (26, 36)]⟩] (fun groups => groups) =
      "x sourcegraph/server:3.12@sha256:abc".data :=
  ⟨by decide,
    c1_identity_rewrite "x sourcegraph/server:3.12@sha256:abc".data
      [⟨2, 36, [(2, 20), (21, 25), (26, 36)]⟩] (fun groups => groups)
      (by decide) (fun m _ => rfl)⟩

/-- C2: every successful resolution returns the original string of a
candidate that parses and satisfies the constraint, and whose parsed
version no other parseable, constraint-satisfying candidate exceeds in the
semantic-version order; unparseable candidates are discarded.  The spec's
`"<2.0.0"` example is checked in the witness. -/
theorem c2_resolution_maximum (constraint : Option (SemVer → Bool)) (name s : String)
    (tags : List String)
    (h : findLatestSemverTag constraint name tags = .ok s) :
    ∃ t ∈ tags, ∃ v : SemVer, semverNewVersion t = some v ∧
      checkConstraint constraint v = true ∧ s = v.original ∧
      ∀ u ∈ tags, ∀ w : SemVer, semverNewVersion u = some w →
        checkConstraint constraint w = true → semverCompare w v ≠ .gt := by
  obtain ⟨v, rest, hs, hso⟩ := findLatestSemverTag_ok h
  have hv : v ∈ collectVersions constraint tags := by
    rw [← mem_sortDesc semverCompare, hs]
    exact List.mem_cons_self _ _
  obtain ⟨t, ht, hp, hck⟩ := mem_collectVersions.mp hv
  refine ⟨t, ht, v, hp, hck, hso, ?_⟩
  intro u hu w hpw hckw
  have hw : w ∈ collectVersions constraint tags :=
    mem_collectVersions.mpr ⟨u, hu, hpw, hckw⟩
  exact sortDesc_head_max semverCompare semverCompare_not_gt_self
    (fun z x hzx y => semverCompare_L hzx y)
    (collectVersions constraint tags) v rest hs w hw

/-- Witness for C2: the spec's constraint-filtering example. -/
theorem c2_resolution_maximum_witness :
    findLatestSemverTag (some (ltConstraint v200)) "repo"
      ["1.0.0", "1.5.0", "2.0.0", "bogus"] = .ok "1.5.0" ∧
    (∃ t ∈ ["1.0.0", "1.5.0", "2.0.0", "bogus"], ∃ v : SemVer,
      semverNewVersion t = some v ∧
      checkConstraint (some (ltConstraint v200)) v = true ∧ "1.5.0" = v.original ∧
      ∀ u ∈ ["1.0.0", "1.5.0", "2.0.0", "bogus"], ∀ w : SemVer,
        semverNewVersion u = some w →
        checkConstraint (some (ltConstraint v200)) w = true →
        semverCompare w v ≠ .gt) :=
  ⟨by decide,
    c2_resolution_maximum (some (ltConstraint v200)) "repo" "1.5.0"
      ["1.0.0", "1.5.0", "2.0.0", "bogus"] (by decide)⟩

/-- C3: an original tag that does not parse as a semantic version is
returned unchanged, regardless of the candidate tags and the constraint
(the code has no enforce mode, so this is its unconditional behaviour for
opaque tags). -/
theorem c3_opaque_passthrough (constraint : Option (SemVer → Bool)) (name : String)
    (candidateTags : List String) (originalTag : String)
    (h : isNonSemverTag originalTag = true) :
    resolveTag constraint name candidateTags originalTag = .ok originalTag := by
  unfold resolveTag
  rw [if_pos h]

/-- Witness for C3: `"latest"` passes through untouched. -/
theorem c3_opaque_passthrough_witness :
    isNonSemverTag "latest" = true ∧
    resolveTag (some (ltConstraint v200)) "library/x" ["1.0.0", "9.9.9"] "latest" =
      .ok "latest" :=
  ⟨by decide,
    c3_opaque_passthrough (some (ltConstraint v200)) "library/x" ["1.0.0", "9.9.9"]
      "latest" (by decide)⟩

/-- C5 counterexample: with the constraint `>2.0.0` configured and no
surviving candidate, the failure message is exactly
`no semver tags found for "r"` — the constraint string `>2.0.0` does not
occur in it, so the message does not name the constraint. -/
theorem c5_counterexample :
    findLatestSemverTag (some (gtConstraint v200)) "r" ["1.0.0"] =
      .error "no semver tags found for \"r\"" ∧
    containsSub ">2.0.0" "no semver tags found for \"r\"" = false :=
  ⟨by decide, by decide⟩

/-- C5 (amended): when the surviving candidate set is empty, resolution
fails with a `no semver tags found` error naming the repository; the
constraint, when present, is not part of the message. -/
theorem c5_no_match_error (constraint : Option (SemVer → Bool)) (name : String)
    (tags : List String) (h : collectVersions constraint tags = []) :
    findLatestSemverTag constraint name tags =
      .error ("no semver tags found for " ++ goQuote name) ∧
    containsSub name ("no semver tags found for " ++ goQuote name) = true := by
  constructor
  · unfold findLatestSemverTag
    rw [h]
    simp
  · have heq : "no semver tags found for " ++ goQuote name =
        ("no semver tags found for " ++ "\"") ++ name ++ "\"" := by
      unfold goQuote
      rw [← String.append_assoc, ← String.append_assoc]
    exact containsSub_of_eq_append heq

/-- Witness for C5 (amended): the spec's no-match example. -/
theorem c5_no_match_error_witness :
    collectVersions (some (gtConstraint v200)) ["1.0.0"] = [] ∧
    (findLatestSemverTag (some (gtConstraint v200)) "r" ["1.0.0"] =
        .error ("no semver tags found for " ++ goQuote "r") ∧
      containsSub "r" ("no semver tags found for " ++ goQuote "r") = true) :=
  ⟨by decide, c5_no_match_error (some (gtConstraint v200)) "r" ["1.0.0"] (by decide)⟩

/-- C6: a successful resolution returns the winning candidate exactly as it
was spelled in the candidate list (the parsed version's `Original()`), never
a renormalised serialisation. -/
theorem c6_literal_preservation (constraint : Option (SemVer → Bool)) (name s : String)
    (tags : List String)
    (h : findLatestSemverTag constraint name tags = .ok s) :
    s ∈ tags ∧ ∃ v : SemVer, semverNewVersion s = some v ∧ v.original = s ∧
      checkConstraint constraint v = true := by
  obtain ⟨v, rest, hs, hso⟩ := findLatestSemverTag_ok h
  have hv : v ∈ collectVersions constraint tags := by
    rw [← mem_sortDesc semverCompare, hs]
    exact List.mem_cons_self _ _
  obtain ⟨t, ht, hp, hck⟩ := mem_collectVersions.mp hv
  have hts : s = t := by rw [hso, semverNewVersion_original hp]
  constructor
  · rw [hts]; exact ht
  · refine ⟨v, ?_, ?_, hck⟩
    · rw [hts]; exact hp
    · rw [semverNewVersion_original hp, hts]

/-- Witness for C6: `v2.16.0` is returned literally, not as `2.16.0`. -/
theorem c6_literal_preservation_witness :
    findLatestSemverTag none "r" ["v2.16.0"] = .ok "v2.16.0" ∧
    ("v2.16.0" ∈ ["v2.16.0"] ∧ ∃ v : SemVer, semverNewVersion "v2.16.0" = some v ∧
      v.original = "v2.16.0" ∧ checkConstraint none v = true) :=
  ⟨by decide, c6_literal_preservation none "r" "v2.16.0" ["v2.16.0"] (by decide)⟩

/-- The expected output of a tag-only rewrite of the three-group reference
pattern: every byte of the input stays in place except each match's
group-1 (tag) span.  `goSlice src last a1` carries the bytes before the
match, the repository group and the `:` separator unchanged, and the
recursive call starting at `b1` carries the `@` separator, the digest
group and the bytes after the match unchanged. -/
def tagOnlySplice (src : List Char)
    (f : List Char → List Char → List Char → List Char) :
    List RegexMatch → Nat → List Char
  | [], last => goSlice src last src.length
  | m :: ms, last =>
    match m.groups with
    | [(a0, b0), (a1, b1), (a2, b2)] =>
      goSlice src last a1 ++
        f (goSlice src a0 b0) (goSlice src a1 b1) (goSlice src a2 b2) ++
        tagOnlySplice src f ms b1
    | _ => goSlice src last src.length

theorem slice_append_cons (src : List Char) {a b c : Nat} (hab : a ≤ b) (hbc : b ≤ c)
    (X : List Char) :
    goSlice src a b ++ (goSlice src b c ++ X) = goSlice src a c ++ X := by
  rw [← List.append_assoc, slice_append src hab hbc]

theorem tagOnlySplice_shift (src : List Char)
    (f : List Char → List Char → List Char → List Char) {ms : List RegexMatch}
    {b1 stop : Nat} (hb : b1 ≤ stop)
    (hv : validMatches src.length stop ms = true) :
    goSlice src b1 stop ++ tagOnlySplice src f ms stop = tagOnlySplice src f ms b1 := by
  cases ms with
  | nil =>
    simp only [tagOnlySplice]
    exact slice_append src hb (validMatches_le hv)
  | cons m ms =>
    simp only [validMatches, Bool.and_eq_true, decide_eq_true_eq] at hv
    obtain ⟨⟨h1, h2⟩, h3⟩ := hv
    have hstop : stop ≤ src.length :=
      le_trans h1 (le_trans (chainOk_le h2) (validMatches_le h3))
    simp only [tagOnlySplice]
    rcases hg : m.groups with _ | ⟨⟨a0, b0⟩, _ | ⟨⟨a1, b1'⟩, _ | ⟨⟨a2, b2⟩, _ | ⟨g4, rest⟩⟩⟩⟩
    · exact slice_append src hb hstop
    · exact slice_append src hb hstop
    · exact slice_append src hb hstop
    · rw [hg] at h2
      simp only [chainOk, Bool.and_eq_true, decide_eq_true_eq] at h2
      have hra : stop ≤ a1 := by omega
      simp only [List.append_assoc]
      rw [slice_append_cons src hb hra]
    · exact slice_append src hb hstop

theorem replaceLoop_tagOnly (src : List Char)
    (f : List Char → List Char → List Char → List Char)
    (repl : List (List Char) → List (List Char))
    (hr : ∀ g0 g1 g2, repl [g0, g1, g2] = [g0, f g0 g1 g2, g2]) :
    ∀ (matchList : List RegexMatch) (last : Nat),
      validMatches src.length last matchList = true →
      (∀ m ∈ matchList, ∃ a0 b0 a1 b1 a2 b2,
        m.groups = [(a0, b0), (a1, b1), (a2, b2)]) →
      replaceLoop src repl matchList last = tagOnlySplice src f matchList last := by
  intro matchList
  induction matchList with
  | nil => intro last _ _; simp [replaceLoop, tagOnlySplice]
  | cons m ms ih =>
    intro last hv hshape
    obtain ⟨a0, b0, a1, b1, a2, b2, hg⟩ := hshape m (List.mem_cons_self m ms)
    simp only [validMatches, Bool.and_eq_true, decide_eq_true_eq] at hv
    obtain ⟨⟨h1, h2⟩, h3⟩ := hv
    rw [hg] at h2
    simp only [chainOk, Bool.and_eq_true, decide_eq_true_eq] at h2
    obtain ⟨⟨hsa0, ha0b0⟩, ⟨hb0a1, ha1b1⟩, ⟨hb1a2, ha2b2⟩, hb2e⟩ := h2
    simp only [replaceLoop, tagOnlySplice, hg]
    rw [show extractGroups src [(a0, b0), (a1, b1), (a2, b2)] =
        [goSlice src a0 b0, goSlice src a1 b1, goSlice src a2 b2] from rfl]
    rw [hr]
    simp only [spliceLoop]
    rw [ih m.stop h3 (fun m' hm' => hshape m' (List.mem_cons_of_mem _ hm'))]
    simp only [List.append_assoc]
    rw [slice_append_cons src h1 hsa0,
      slice_append_cons src (le_trans h1 hsa0) ha0b0,
      slice_append_cons src (le_trans (le_trans h1 hsa0) ha0b0) hb0a1]
    rw [slice_append_cons src hb1a2 ha2b2,
      slice_append_cons src (le_trans hb1a2 ha2b2) hb2e]
    rw [tagOnlySplice_shift src f (le_trans (le_trans hb1a2 ha2b2) hb2e) h3]

/-- C7: when the callback replaces only group 1 (the tag) and returns
groups 0 (repository) and 2 (digest) unchanged, the rewrite equals
`tagOnlySplice`: the output is the original buffer with only each match's
tag span replaced — the repository group, the digest group, the uncaptured
separator bytes inside the match, and all bytes outside matches are
byte-identical. -/
theorem c7_group_isolation (src : List Char) (matchList : List RegexMatch)
    (f : List Char → List Char → List Char → List Char)
    (repl : List (List Char) → List (List Char))
    (hv : validMatches src.length 0 matchList = true)
    (hshape : ∀ m ∈ matchList, ∃ a0 b0 a1 b1 a2 b2,
      m.groups = [(a0, b0), (a1, b1), (a2, b2)])
    (hr : ∀ g0 g1 g2, repl [g0, g1, g2] = [g0, f g0 g1 g2, g2]) :
    replaceAllSubmatchFunc src matchList repl = tagOnlySplice src f matchList 0 := by
  unfold replaceAllSubmatchFunc
  exact replaceLoop_tagOnly src f repl hr matchList 0 hv hshape

/-- Witness for C7 at a concrete one-match buffer with a concrete tag
replacement; the extra conjunct shows the resulting bytes: only the tag
changed. -/
theorem c7_group_isolation_witness :
    validMatches "FROM a/b:1.0@sha256:ab x".data.length 0
      [⟨5, 22, [(5, 8), (9, 12), (13, 22)]⟩] = true ∧
    replaceAllSubmatchFunc "FROM a/b:1.0@sha256:ab x".data
      [⟨5, 22, [(5, 8), (9, 12), (13, 22)]⟩]
      (fun gs => match gs with
        | [g0, g1, g2] => [g0, (fun _ _ _ => "2.0".data) g0 g1 g2, g2]
        | _ => gs) =
      tagOnlySplice "FROM a/b:1.0@sha256:ab x".data (fun _ _ _ => "2.0".data)
        [⟨5, 22, [(5, 8), (9, 12), (13, 22)]⟩] 0 ∧
    tagOnlySplice "FROM a/b:1.0@sha256:ab x".data (fun _ _ _ => "2.0".data)
      [⟨5, 22, [(5, 8), (9, 12), (13, 22)]⟩] 0 = "FROM a/b:2.0@sha256:ab x".data :=
  ⟨by decide,
    c7_group_isolation "FROM a/b:1.0@sha256:ab x".data
      [⟨5, 22, [(5, 8), (9, 12), (13, 22)]⟩] (fun _ _ _ => "2.0".data)
      (fun gs => match gs with
        | [g0, g1, g2] => [g0, (fun _ _ _ => "2.0".data) g0 g1 g2, g2]
        | _ => gs)
      (by decide)
      (fun m hm => by
        simp only [List.mem_singleton] at hm
        exact ⟨5, 8, 9, 12, 13, 22, by rw [hm]⟩)
      (fun g0 g1 g2 => rfl),
    by decide⟩

/-- C9: `patternMatchAt` — the translation of `defaultPattern` — only
matches `<repo>:<tag>@sha256:<hex>` segments sitting between word
boundaries; every matched segment contains the literal `@` separator, the
string `import("foo/bar")` has no match anywhere, and a buffer with zero
matches is returned unchanged by the rewrite. -/
theorem c9_pattern_boundary :
    (∀ s pre seg post, patternMatchAt s pre seg post →
      '@' ∈ s ∧ ∃ repo tag hex,
        seg = repo ++ ':' :: (tag ++ '@' ::
          ('s' :: 'h' :: 'a' :: '2' :: '5' :: '6' :: ':' :: hex)) ∧
        repo ≠ [] ∧ tag ≠ [] ∧ hex ≠ []) ∧
    ¬ patternHasMatch "import(\"foo/bar\")".data ∧
    (∀ repl, replaceAllSubmatchFunc "import(\"foo/bar\")".data [] repl =
      "import(\"foo/bar\")".data) := by
  refine ⟨?_, ?_, ?_⟩
  · intro s pre seg post hm
    obtain ⟨hdecomp, hshape, _, _⟩ := hm
    obtain ⟨repo, tag, hex, hseg, hr, _, ht, _, hh, _⟩ := hshape
    constructor
    · rw [hdecomp, hseg]
      simp
    · exact ⟨repo, tag, hex, hseg, hr, ht, hh⟩
  · rintro ⟨pre, seg, post, hdecomp, hshape, _, _⟩
    obtain ⟨repo, tag, hex, hseg, _⟩ := hshape
    have hat : '@' ∈ "import(\"foo/bar\")".data := by
      rw [hdecomp, hseg]
      simp
    revert hat
    decide
  · intro repl
    unfold replaceAllSubmatchFunc
    simp only [replaceLoop]
    exact slice_zero_length _

theorem parseRegistry_two_piece {name : String} (h1 : name.data.contains '/' = false) :
    parseRegistry ("library/" ++ name) =
      .ok ("https://index.docker.io/v2/", "library/" ++ name) := by
  have hdata : ("library/" ++ name).data =
      'l' :: 'i' :: 'b' :: 'r' :: 'a' :: 'r' :: 'y' :: '/' :: name.data := by
    rw [String.data_append]
    rfl
  have hsplit : splitOnChar '/' ("library/" ++ name).data =
      [['l', 'i', 'b', 'r', 'a', 'r', 'y'], name.data] := by
    rw [hdata]
    simp [splitOnChar, splitOnChar_not_mem h1]
  simp only [parseRegistry, hsplit]
  simp

/-- C10: a repository name without `/` is qualified to `library/<name>`
before registry parsing, token fetching and constraint lookup: the
constructed repository carries the qualified name, the Docker Hub registry
URL, a token fetched for the qualified name, and the constraint registered
under `library/<name>` — a constraint registered under the bare name is
never consulted. -/
theorem c10_library_qualification (ext : Registry)
    (constraints : String → Option (SemVer → Bool)) (name tk : String)
    (h1 : name.data.contains '/' = false)
    (h2 : ext.authToken ("library/" ++ name) = .ok tk) :
    newRepository ext constraints name =
      .ok ⟨"library/" ++ name, "https://index.docker.io/v2/", "library/" ++ name,
        constraints ("library/" ++ name), tk⟩ := by
  have hq : qualifyRepository name = "library/" ++ name := by
    unfold qualifyRepository
    rw [if_neg (by rw [h1]; simp)]
  unfold newRepository
  simp only [hq, parseRegistry_two_piece h1]
  simp [h2]

/-- A registry oracle with every lookup failing; used to exercise the
error paths of the driver. -/
def failingRegistry : Registry :=
  ⟨fun _ => .error "boom", fun _ _ => .error "down", fun _ _ _ => .error "down"⟩

/-- A registry oracle with every lookup succeeding. -/
def okRegistry : Registry :=
  ⟨fun _ => .ok "tok", fun _ _ => .ok [], fun _ _ _ => .ok "sha256:00"⟩

/-- An empty constraint configuration. -/
def noConstraints : String → Option (SemVer → Bool) := fun _ => none

/-- A one-reference sample buffer for the driver error-path theorems. -/
def sampleSrc : List Char := "a/b:9.9.9@sha256:aa".data

/-- The reference match inside `sampleSrc`: repository `a/b`, tag `9.9.9`,
digest `sha256:aa`. -/
def sampleMatch : RegexMatch := ⟨0, 19, [(0, 3), (4, 9), (10, 19)]⟩

/-- Witness for C10: `ubuntu` resolves its token and constraint under
`library/ubuntu`. -/
theorem c10_library_qualification_witness :
    ("ubuntu" : String).data.contains '/' = false ∧
    newRepository okRegistry noConstraints "ubuntu" =
      .ok ⟨"library/" ++ "ubuntu", "https://index.docker.io/v2/",
        "library/" ++ "ubuntu", noConstraints ("library/" ++ "ubuntu"), "tok"⟩ :=
  ⟨by decide,
    c10_library_qualification okRegistry noConstraints "ubuntu" "tok" (by decide) rfl⟩

theorem containsSubList_mono_pre {n h : List Char} (pre : List Char)
    (hh : containsSubList n h = true) : containsSubList n (pre ++ h) = true := by
  unfold containsSubList at hh ⊢
  rw [List.any_eq_true] at hh ⊢
  obtain ⟨i, hi, hp⟩ := hh
  rw [List.mem_range] at hi
  refine ⟨pre.length + i, ?_, ?_⟩
  · rw [List.mem_range, List.length_append]
    omega
  · rw [← List.drop_drop, List.drop_left]
    exact hp

theorem containsSub_mono_pre {n h : String} (pre : String)
    (hh : containsSub n h = true) : containsSub n (pre ++ h) = true := by
  unfold containsSub at hh ⊢
  rw [String.data_append]
  exact containsSubList_mono_pre pre.data hh

theorem string_eq_of_data {x y : String} (h : x.data = y.data) : x = y :=
  String.ext h

/-- The containment of the `'name:tag'` token inside an `errors.Wrapf`
message of the form `<A>'name:tag': <cause>`. -/
theorem containsSub_quoted_pair (A name t cause : String) :
    containsSub ("'" ++ name ++ ":" ++ t ++ "'")
      ((A ++ "'") ++ name ++ ":" ++ t ++ "': " ++ cause) = true := by
  have heq : (A ++ "'") ++ name ++ ":" ++ t ++ "': " ++ cause =
      A ++ ("'" ++ name ++ ":" ++ t ++ "'") ++ (": " ++ cause) := by
    apply string_eq_of_data
    have hsp : ("': " : String).data = ("'" : String).data ++ (": " : String).data := by
      decide
    simp [String.data_append, hsp]
  rw [heq]
  exact containsSub_append ("'" ++ name ++ ":" ++ t ++ "'") A (": " ++ cause)

/-- The raw repository name is contained in any message of the form
`<A><qualified-name><B>`, since qualification only prepends `library/`. -/
theorem containsSub_name_part (A name B : String) {g0 : String}
    (hq : name = g0 ∨ name = "library/" ++ g0) :
    containsSub g0 (A ++ name ++ B) = true := by
  rcases hq with hn | hn
  · rw [hn]
    exact containsSub_append g0 A B
  · rw [hn]
    have heq : A ++ ("library/" ++ g0) ++ B = (A ++ "library/") ++ g0 ++ B := by
      apply string_eq_of_data
      simp [String.data_append]
    rw [heq]
    exact containsSub_append g0 (A ++ "library/") B

theorem newRepository_name {ext : Registry}
    {constraints : String → Option (SemVer → Bool)} {rn : String} {r : Repository}
    (h : newRepository ext constraints rn = .ok r) :
    r.name = qualifyRepository rn := by
  unfold newRepository at h
  cases hp : parseRegistry (qualifyRepository rn) with
  | error e => simp [hp] at h
  | ok pr =>
    obtain ⟨registry, repo⟩ := pr
    simp only [hp] at h
    split_ifs at h with hreg
    · cases ha : ext.authToken (qualifyRepository rn) with
      | error e0 => simp [ha] at h
      | ok tk =>
        simp only [ha] at h
        injection h with hr
        rw [← hr]
    · injection h with hr
      rw [← hr]

theorem qualifyRepository_shape (rn : String) :
    qualifyRepository rn = rn ∨ qualifyRepository rn = "library/" ++ rn := by
  unfold qualifyRepository
  split_ifs <;> simp

/-- Content of the `replaceErr` message a failing match leaves behind: it
always contains the raw group-0 repository name, and when repository
initialization succeeded the later failure names the `'repository:tag'`
pair. -/
theorem tagCallback_err_content (ext : Registry)
    (constraints : String → Option (SemVer → Bool)) (groups : List (List Char))
    (e : String) (h : (tagCallback ext constraints groups).2 = some e) :
    containsSub (String.mk (groups.getD 0 [])) e = true ∧
    ∀ r, newRepository ext constraints (String.mk (groups.getD 0 [])) = .ok r →
      ∃ t, containsSub ("'" ++ r.name ++ ":" ++ t ++ "'") e = true := by
  unfold tagCallback at h
  cases hnr : newRepository ext constraints (String.mk (groups.getD 0 [])) with
  | error e0 =>
    simp only [hnr] at h
    injection h with he
    constructor
    · rw [← he]
      have heq : "when initializing repository " ++
          goQuote (String.mk (groups.getD 0 [])) ++ ": " ++ e0 =
          ("when initializing repository " ++ "\"") ++ String.mk (groups.getD 0 []) ++
            ("\"" ++ (": " ++ e0)) := by
        apply string_eq_of_data
        simp [goQuote, String.data_append]
      rw [heq]
      exact containsSub_append _ _ _
    · intro r hr
      exact absurd hr (by simp)
  | ok repository =>
    simp only [hnr] at h
    have hname := newRepository_name hnr
    have hshape := qualifyRepository_shape (String.mk (groups.getD 0 []))
    rw [← hname] at hshape
    cases hnt : (if isNonSemverTag (String.mk (groups.getD 1 [])) then
        Except.ok (String.mk (groups.getD 1 []))
      else repositoryFindLatestSemverTag ext repository) with
    | error e1 =>
      simp only [hnt] at h
      injection h with he
      constructor
      · rw [← he]
        have heq : "when finding the latest semver tag for '" ++ repository.name ++
            ":" ++ String.mk (groups.getD 1 []) ++ "': " ++ e1 =
            "when finding the latest semver tag for '" ++ repository.name ++
              (":" ++ String.mk (groups.getD 1 []) ++ "': " ++ e1) := by
          apply string_eq_of_data
          simp [String.data_append]
        rw [heq]
        exact containsSub_name_part _ _ _ hshape
      · intro r hr
        injection hr with hrr
        subst hrr
        refine ⟨String.mk (groups.getD 1 []), ?_⟩
        rw [← he]
        have hA : ("when finding the latest semver tag for '" : String) =
            "when finding the latest semver tag for " ++ "'" := by decide
        rw [hA]
        exact containsSub_quoted_pair _ _ _ _
    | ok newTag =>
      simp only [hnt] at h
      cases hd : ext.digest repository.registry repository.repo newTag with
      | error e2 =>
        simp only [hd] at h
        injection h with he
        constructor
        · rw [← he]
          have heq : "when fetching image digest for '" ++ repository.name ++
              ":" ++ newTag ++ "': " ++ e2 =
              "when fetching image digest for '" ++ repository.name ++
                (":" ++ newTag ++ "': " ++ e2) := by
            apply string_eq_of_data
            simp [String.data_append]
          rw [heq]
          exact containsSub_name_part _ _ _ hshape
        · intro r hr
          injection hr with hrr
          subst hrr
          refine ⟨newTag, ?_⟩
          rw [← he]
          have hA : ("when fetching image digest for '" : String) =
              "when fetching image digest for " ++ "'" := by decide
          rw [hA]
          exact containsSub_quoted_pair _ _ _ _
      | ok newDigest =>
        simp only [hd] at h
        exact absurd h (by simp)

/-- C4 counterexample: when repository initialization (the auth-token
fetch) fails, the per-file error identifies the file path and the
repository but not the tag — the original tag `9.9.9` of the match does
not occur anywhere in the message, refuting the claim that every per-match
failure produces an error identifying file path, repository, and tag. -/
theorem c4_counterexample :
    processFile failingRegistry noConstraints "f" sampleSrc [sampleMatch] =
      .error ("when replacing image tags in \"f\": " ++
        "when initializing repository \"a/b\": when fetching auth token: boom") ∧
    containsSub "9.9.9"
      ("when replacing image tags in \"f\": " ++
        "when initializing repository \"a/b\": when fetching auth token: boom") = false :=
  ⟨by decide, by decide⟩

/-- C4 (amended): whenever any per-match step fails, `processFile` aborts
with the wrapped `replaceErr` instead of returning the rewritten buffer;
the message contains the file path and the raw repository name of a failing
match, and when repository initialization succeeded for that match the
message also names the `'repository:tag'` pair (the original tag for a
resolution failure, the winning tag for a digest failure).  Repository
initialization failures name only the path and the repository. -/
theorem c4_error_propagation (ext : Registry)
    (constraints : String → Option (SemVer → Bool)) (path : String)
    (src : List Char) (matchList : List RegexMatch) (e : String)
    (h : replaceErrOf ext constraints src matchList = some e) :
    processFile ext constraints path src matchList =
      .error ("when replacing image tags in " ++ goQuote path ++ ": " ++ e) ∧
    containsSub path
      ("when replacing image tags in " ++ goQuote path ++ ": " ++ e) = true ∧
    ∃ m ∈ matchList,
      (tagCallback ext constraints (extractGroups src m.groups)).2 = some e ∧
      containsSub (String.mk ((extractGroups src m.groups).getD 0 [])) e = true ∧
      ∀ r, newRepository ext constraints
          (String.mk ((extractGroups src m.groups).getD 0 [])) = .ok r →
        ∃ t, containsSub ("'" ++ r.name ++ ":" ++ t ++ "'") e = true := by
  refine ⟨?_, ?_, ?_⟩
  · simp only [processFile, h]
  · have heq : "when replacing image tags in " ++ goQuote path ++ ": " ++ e =
        ("when replacing image tags in " ++ "\"") ++ path ++ ("\"" ++ (": " ++ e)) := by
      apply string_eq_of_data
      simp [goQuote, String.data_append]
    rw [heq]
    exact containsSub_append _ _ _
  · have hmem : e ∈ matchList.filterMap
        (fun m => (tagCallback ext constraints (extractGroups src m.groups)).2) :=
      List.mem_of_mem_getLast? h
    obtain ⟨m, hm, hf⟩ := List.mem_filterMap.mp hmem
    obtain ⟨hc1, hc2⟩ := tagCallback_err_content ext constraints _ e hf
    exact ⟨m, hm, hf, hc1, hc2⟩

/-- Witness for C4 (amended) at the failing-token sample. -/
theorem c4_error_propagation_witness :
    replaceErrOf failingRegistry noConstraints sampleSrc [sampleMatch] =
      some "when initializing repository \"a/b\": when fetching auth token: boom" ∧
    (processFile failingRegistry noConstraints "f" sampleSrc [sampleMatch] =
        .error ("when replacing image tags in " ++ goQuote "f" ++ ": " ++
          "when initializing repository \"a/b\": when fetching auth token: boom") ∧
      containsSub "f"
        ("when replacing image tags in " ++ goQuote "f" ++ ": " ++
          "when initializing repository \"a/b\": when fetching auth token: boom") = true ∧
      ∃ m ∈ [sampleMatch],
        (tagCallback failingRegistry noConstraints
            (extractGroups sampleSrc m.groups)).2 =
          some "when initializing repository \"a/b\": when fetching auth token: boom" ∧
        containsSub (String.mk ((extractGroups sampleSrc m.groups).getD 0 []))
          "when initializing repository \"a/b\": when fetching auth token: boom" = true ∧
        ∀ r, newRepository failingRegistry noConstraints
            (String.mk ((extractGroups sampleSrc m.groups).getD 0 [])) = .ok r →
          ∃ t, containsSub ("'" ++ r.name ++ ":" ++ t ++ "'")
            "when initializing repository \"a/b\": when fetching auth token: boom" = true) :=
  ⟨by decide,
    c4_error_propagation failingRegistry noConstraints "f" sampleSrc [sampleMatch]
      "when initializing repository \"a/b\": when fetching auth token: boom" (by decide)⟩
